import Mathlib

/-!
Verification of the MaxwellBloch propagation engine specification.

The repository snapshot contains only the documentation notebooks
(docs/usage and docs/examples); the library modules themselves
(mb_solve, ob_atom, field, spectral, fixed, t_funcs) are not present.
Every definition below whose doc comment starts with `Modelled from the
spec:` is therefore a shallow embedding built from the specification
text (spec.md) and from the calls visible in the notebooks, not from
library source code.
-/

open scoped BigOperators

namespace MaxwellBloch

/-! ## Grids

Modelled from the spec: PropagationGrid, an ordered sequence of samples
from a minimum to a maximum with steps+1 points (section 3). -/

/-- Modelled from the spec: the uniform sample list from `a` to `b` with
`steps + 1` points (the missing code is the grid construction of
`mb_solve.MBSolve`, `np.linspace` in the original). -/
def linspace (a b : ℚ) (steps : ℕ) : List ℚ :=
  (List.range (steps + 1)).map (fun i : ℕ => a + (b - a) * (i : ℚ) / (steps : ℚ))

theorem linspace_length (a b : ℚ) (steps : ℕ) :
    (linspace a b steps).length = steps + 1 := by
  rw [linspace, List.length_map, List.length_range]

theorem linspace_head (a b : ℚ) (steps : ℕ) :
    (linspace a b steps).head? = some a := by
  simp [linspace, List.range_succ_eq_map, List.head?_map]

/-! ## Velocity classes

Modelled from the spec: VelocityClassSet, an ordered sequence of
detuning offsets each with a non-negative Maxwell-Boltzmann weight; may
be built from a coarse outer range plus a denser inner range, with
duplicate detuning values collapsed to one entry (section 3 and the
velocity-classes notebook). -/

/-- Modelled from the spec: the configuration block
`thermal_delta_min/max/steps` with an optional inner sub-range (the
missing code is `mb_solve.MBSolve.build_velocity_classes`). -/
structure VelocityClasses where
  thermalDeltaMin : ℚ
  thermalDeltaMax : ℚ
  thermalDeltaSteps : ℕ
  inner : Option (ℚ × ℚ × ℕ)
  thermalWidth : ℚ

/-- Modelled from the spec: merging of the outer and inner detuning
ranges; duplicated values are collapsed to one entry and the result is
sorted (the original uses `np.unique`). -/
def mergeDeltas (outer inner : List ℚ) : List ℚ :=
  ((outer ++ inner).toFinset).sort (· ≤ ·)

/-- Modelled from the spec: the constructed `thermal_delta_list`. -/
def buildThermalDeltaList (vc : VelocityClasses) : List ℚ :=
  match vc.inner with
  | none => linspace vc.thermalDeltaMin vc.thermalDeltaMax vc.thermalDeltaSteps
  | some (a, b, s) =>
      mergeDeltas
        (linspace vc.thermalDeltaMin vc.thermalDeltaMax vc.thermalDeltaSteps)
        (linspace a b s)

/-- Modelled from the spec: the 1D Maxwell-Boltzmann probability density
at detuning `d` for thermal width `u` (velocity-classes notebook,
`mb_solve.maxwell_boltzmann`). -/
noncomputable def maxwellBoltzmann (d u : ℝ) : ℝ :=
  (1 / (u * Real.sqrt Real.pi)) * Real.exp (-(d / u) ^ 2)

/-- Modelled from the spec: the quadrature weights attached to the
constructed detuning list (`thermal_weights`). -/
noncomputable def thermalWeights (vc : VelocityClasses) : List ℝ :=
  (buildThermalDeltaList vc).map (fun d => maxwellBoltzmann (d : ℝ) (vc.thermalWidth : ℝ))

theorem maxwellBoltzmann_nonneg {u : ℝ} (d : ℝ) (hu : 0 < u) :
    0 ≤ maxwellBoltzmann d u := by
  have h1 : 0 < u * Real.sqrt Real.pi :=
    mul_pos hu (Real.sqrt_pos.mpr Real.pi_pos)
  have h2 : 0 < Real.exp (-(d / u) ^ 2) := Real.exp_pos _
  exact mul_nonneg (le_of_lt (div_pos one_pos h1)) (le_of_lt h2)

theorem mergeDeltas_sorted (outer inner : List ℚ) :
    (mergeDeltas outer inner).Sorted (· < ·) :=
  Finset.sort_sorted_lt _

theorem mergeDeltas_nodup (outer inner : List ℚ) :
    (mergeDeltas outer inner).Nodup :=
  Finset.sort_nodup _ _

theorem mem_mergeDeltas (outer inner : List ℚ) (x : ℚ) :
    x ∈ mergeDeltas outer inner ↔ x ∈ outer ∨ x ∈ inner := by
  simp [mergeDeltas]

/-! ## The field grid and the z-stepping pipeline

Modelled from the spec: the outer loop walks the spatial grid; at each
step the current field row is fed, per velocity class, into the
master-equation solver to obtain the polarization row; the
ThermalAverager combines classes by a weighted sum; the FieldStepper
produces the field row at the next z-point (sections 2, 4.3, 4.4). The
inner solver (MasterEquationPropagator composed with
PolarizationExtractor, missing code `ob_atom`/`mb_solve.mbsolve`) is a
parameter `solve` mapping a detuning and a field row to a polarization
row. -/

/-- Modelled from the spec: the finite-difference FieldStepper update
for one z step of size `dz`, a first-order discretization of
the one-way wave equation with source `i (Ng/2) P` (section 4.3). -/
noncomputable def fieldStepRow {N : ℕ} (Ng : ℝ) (dz : ℚ) (P row : Fin N → ℂ) :
    Fin N → ℂ :=
  fun t => row t + (dz : ℂ) * (Complex.I * ((Ng : ℂ) / 2) * P t)

/-- Modelled from the spec: the ThermalAverager polarization, the
weighted sum of per-class polarizations, each class solved at the
nominal detuning shifted by the class offset (section 4.4). -/
noncomputable def weightedPolarization {N : ℕ}
    (solve : ℝ → (Fin N → ℂ) → (Fin N → ℂ)) (nominal : ℝ)
    (classes : List (ℝ × ℝ)) (row : Fin N → ℂ) : Fin N → ℂ :=
  fun t => (classes.map (fun c => (c.1 : ℂ) * solve (nominal + c.2) row t)).sum

/-- Modelled from the spec: one z step of the thermally averaged run:
the FieldStepper is fed the weighted-sum polarization. -/
noncomputable def thermalZStep {N : ℕ} (Ng : ℝ) (dz : ℚ)
    (solve : ℝ → (Fin N → ℂ) → (Fin N → ℂ)) (nominal : ℝ)
    (classes : List (ℝ × ℝ)) (row : Fin N → ℂ) : Fin N → ℂ :=
  fieldStepRow Ng dz (weightedPolarization solve nominal classes row) row

/-- Modelled from the spec: one z step of the run with no velocity
classes configured, a single solver pass at the nominal detuning. -/
noncomputable def plainZStep {N : ℕ} (Ng : ℝ) (dz : ℚ)
    (solve : ℝ → (Fin N → ℂ) → (Fin N → ℂ)) (nominal : ℝ)
    (row : Fin N → ℂ) : Fin N → ℂ :=
  fieldStepRow Ng dz (solve nominal row) row

/-- Modelled from the spec: the field row at z-index `k`, obtained by
iterating the z step from the boundary row at `z_min`. -/
noncomputable def rowAt {N : ℕ} (zstep : (Fin N → ℂ) → (Fin N → ℂ))
    (row0 : Fin N → ℂ) : ℕ → Fin N → ℂ
  | 0 => row0
  | k + 1 => zstep (rowAt zstep row0 k)

/-- Modelled from the spec: the per-channel slab of the FieldGrid, the
list of field rows at every recorded z-index. -/
noncomputable def channelGrid {N : ℕ} (zstep : (Fin N → ℂ) → (Fin N → ℂ))
    (row0 : Fin N → ℂ) (zSteps : ℕ) : List (Fin N → ℂ) :=
  (List.range (zSteps + 1)).map (rowAt zstep row0)

/-- Modelled from the spec: the propagation grid bounds of an MBSolve
problem (section 3, PropagationGrid). -/
structure MBGrid where
  tMin : ℚ
  tMax : ℚ
  tSteps : ℕ
  zMin : ℚ
  zMax : ℚ
  zSteps : ℕ

/-- Modelled from the spec: the time sample at index `i`. -/
def MBGrid.tval (g : MBGrid) (i : Fin (g.tSteps + 1)) : ℚ :=
  g.tMin + (g.tMax - g.tMin) * ((i : ℕ) : ℚ) / (g.tSteps : ℚ)

/-- Modelled from the spec: the ordered time sample list (`tlist`). -/
def MBGrid.tlist (g : MBGrid) : List ℚ :=
  linspace g.tMin g.tMax g.tSteps

/-- Modelled from the spec: the ordered space sample list (`zlist`). -/
def MBGrid.zlist (g : MBGrid) : List ℚ :=
  linspace g.zMin g.zMax g.zSteps

/-- Modelled from the spec: the z-step size of the grid. -/
def MBGrid.dz (g : MBGrid) : ℚ :=
  (g.zMax - g.zMin) / (g.zSteps : ℚ)

/-- Modelled from the spec: one declared field channel: the input
envelope (Rabi frequency as a function of time), the interaction
strength `Ng`, and the nominal detuning. -/
structure FieldChannel (g : MBGrid) where
  envelope : ℚ → ℂ
  strength : ℝ
  detuning : ℝ

/-- Modelled from the spec: the boundary field row at `z = z_min`, the
declared envelope sampled on the time grid. -/
noncomputable def boundaryRow {g : MBGrid} (f : FieldChannel g) :
    Fin (g.tSteps + 1) → ℂ :=
  fun i => f.envelope (g.tval i)

/-- Modelled from the spec: the full FieldGrid `Omegas_zt`, indexed by
field channel, then z-index, then t-index. -/
noncomputable def OmegasZT (g : MBGrid) (fields : List (FieldChannel g))
    (solve : ℝ → (Fin (g.tSteps + 1) → ℂ) → (Fin (g.tSteps + 1) → ℂ)) :
    List (List (Fin (g.tSteps + 1) → ℂ)) :=
  fields.map (fun f =>
    channelGrid (plainZStep f.strength g.dz solve f.detuning) (boundaryRow f) g.zSteps)

theorem rowAt_succ {N : ℕ} (zstep : (Fin N → ℂ) → (Fin N → ℂ))
    (row0 : Fin N → ℂ) (k : ℕ) :
    rowAt zstep row0 (k + 1) = zstep (rowAt zstep row0 k) := rfl

theorem channelGrid_get {N : ℕ} (zstep : (Fin N → ℂ) → (Fin N → ℂ))
    (row0 : Fin N → ℂ) (zSteps k : ℕ) (hk : k < zSteps + 1) :
    (channelGrid zstep row0 zSteps)[k]? = some (rowAt zstep row0 k) := by
  rw [channelGrid, List.getElem?_map, List.getElem?_range hk]
  rfl

/-! ## The stepping loop with numerical-instability failure

Modelled from the spec: the run is a linear state machine along z with
a terminal failed state; on failure the error carries the z-index and
the results for all prior z-indices are retained (sections 4.1, 4.3, 7
and the state machine of section 4.6). The possibly failing update
(integrator plus finite-difference step, missing code) is a parameter
`step`; `step i s = none` models a non-finite or physically invalid
result at z-index `i`. -/

/-- Modelled from the spec: the stepping loop from z-index `i` with `n`
steps remaining; returns the computed states and, on failure, the
z-index carried by the NumericalInstabilityError. -/
def stepLoopGo {σ : Type _} (step : ℕ → σ → Option σ) :
    σ → ℕ → ℕ → List σ × Option ℕ
  | s, _, 0 => ([s], none)
  | s, i, n + 1 =>
    match step i s with
    | none => ([s], some i)
    | some s2 =>
      let r := stepLoopGo step s2 (i + 1) n
      (s :: r.1, r.2)

/-- Modelled from the spec: the whole run: start at z-index 0 and take
`n` steps. -/
def stepLoop {σ : Type _} (step : ℕ → σ → Option σ) (s0 : σ) (n : ℕ) :
    List σ × Option ℕ :=
  stepLoopGo step s0 0 n

/-- Modelled from the spec: the partially defined ideal result reached
after `j` updates starting from state `s` at z-index `i0`; `none` once
a failing update has been crossed. -/
def pureRowFrom {σ : Type _} (step : ℕ → σ → Option σ) (s : σ) (i0 : ℕ) :
    ℕ → Option σ
  | 0 => some s
  | j + 1 => (pureRowFrom step s i0 j).bind (step (i0 + j))

/-- Modelled from the spec: the ideal computed value at z-index `j` of
the whole run. -/
def pureRow {σ : Type _} (step : ℕ → σ → Option σ) (s0 : σ) : ℕ → Option σ :=
  pureRowFrom step s0 0

theorem pureRowFrom_front {σ : Type _} (step : ℕ → σ → Option σ) (s : σ)
    (i0 : ℕ) : ∀ j : ℕ, pureRowFrom step s i0 (j + 1) =
      (step i0 s).bind (fun s2 => pureRowFrom step s2 (i0 + 1) j) := by
  intro j
  induction j with
  | zero =>
    show (some s).bind (step (i0 + 0)) = _
    cases h : step i0 s <;> simp [h, pureRowFrom]
  | succ j ih =>
    show (pureRowFrom step s i0 (j + 1)).bind (step (i0 + (j + 1))) = _
    rw [ih, Option.bind_assoc]
    cases h : step i0 s with
    | none => rfl
    | some s2 =>
      show (pureRowFrom step s2 (i0 + 1) j).bind (step (i0 + (j + 1)))
        = pureRowFrom step s2 (i0 + 1) (j + 1)
      have harith : i0 + (j + 1) = (i0 + 1) + j := by omega
      rw [harith]
      rfl

theorem stepLoopGo_fail {σ : Type _} (step : ℕ → σ → Option σ) :
    ∀ (n : ℕ) (s : σ) (i0 : ℕ) (rows : List σ) (i : ℕ),
      stepLoopGo step s i0 n = (rows, some i) →
      i0 ≤ i ∧ i < i0 + n ∧ rows.length = (i - i0) + 1 ∧
        (∀ j, j ≤ i - i0 → rows[j]? = pureRowFrom step s i0 j) ∧
        pureRowFrom step s i0 ((i - i0) + 1) = none := by
  intro n
  induction n with
  | zero =>
    intro s i0 rows i h
    exact absurd (congrArg Prod.snd h) (by simp [stepLoopGo])
  | succ n ih =>
    intro s i0 rows i h
    rw [stepLoopGo] at h
    cases hs : step i0 s with
    | none =>
      rw [hs] at h
      have hrows : rows = [s] := ((Prod.mk.injEq .. ▸ h).1).symm
      have hii : i = i0 := (Option.some.inj ((Prod.mk.injEq .. ▸ h).2)).symm
      subst hrows
      subst hii
      refine ⟨le_rfl, by omega, by simp, ?_, ?_⟩
      · intro j hj
        have hj0 : j = 0 := by omega
        subst hj0
        simp [pureRowFrom]
      · simp only [Nat.sub_self]
        rw [pureRowFrom_front, hs]
        rfl
    | some s2 =>
      rw [hs] at h
      simp only at h
      obtain ⟨hrows, hi⟩ := Prod.mk.injEq .. ▸ h
      obtain ⟨hle, hlt, hlen, hget, hnone⟩ :=
        ih s2 (i0 + 1) (stepLoopGo step s2 (i0 + 1) n).1 i
          (by rw [← hi])
      refine ⟨by omega, by omega, ?_, ?_, ?_⟩
      · rw [← hrows]
        simp only [List.length_cons, hlen]
        omega
      · intro j hj
        rw [← hrows]
        cases j with
        | zero => simp [pureRowFrom]
        | succ j2 =>
          have hj2 : j2 ≤ i - (i0 + 1) := by omega
          have := hget j2 hj2
          simp only [List.getElem?_cons_succ]
          rw [this, pureRowFrom_front, hs]
          rfl
      · have harith : i - i0 + 1 = (i - (i0 + 1) + 1) + 1 := by omega
        rw [harith, pureRowFrom_front, hs]
        exact hnone

/-! ## Read-only problem data during the run

Modelled from the spec: AtomModel and FieldEnvelope are owned by the
problem definition and read-only during propagation; the stepping loop
mutates only the result grids (section 3, Ownership). The run is
embedded as explicit state passing: each z step reads the problem part
and rewrites only the accumulated rows. -/

/-- Modelled from the spec: the state of a run: the problem definition
(AtomModel, FieldEnvelopes, grid, constants) and the grids built so
far. -/
structure SolveState (P : Type _) (R : Type _) where
  problem : P
  rows : List R

/-- Modelled from the spec: one z step of the run as a state
transformer: it reads the problem definition and extends the grids. -/
def solveZStep {P R : Type _} (update : P → List R → List R)
    (st : SolveState P R) : SolveState P R :=
  { problem := st.problem, rows := update st.problem st.rows }

/-! ## The savefile / recalc facility

Modelled from the spec and the notebooks: `mbsolve(recalc=False)`
reloads a previously computed result stored under the savefile key when
one exists, and otherwise computes and stores a fresh result
(velocity-classes and sech notebooks, `mbsolve(recalc=False)`; spec
section 6, Run result persisted snapshot). -/

/-- Modelled from the spec: one `mbsolve` call: `compute` is the full
propagation, `cache` the savefile content; returns the grids handed to
the caller and the new savefile content. -/
def mbsolveCached {P R : Type _} (compute : P → R) (prob : P)
    (recalc : Bool) (cache : Option R) : R × Option R :=
  match recalc, cache with
  | false, some r => (r, some r)
  | _, _ => (compute prob, some (compute prob))

/-! ## The master equation propagator

Modelled from the spec: the MasterEquationPropagator constructs a
time-dependent Hamiltonian from the coupling terms and detunings and a
fixed set of Lindblad dissipators from the decay list, then integrates
`dρ/dt = -i[H(t), ρ] + Σ_k D_k[ρ]` (section 4.1). The missing code is
`ob_atom.OBAtom` / the qutip-based solver; following section 9 (only
convergence to the analytic limits is required, the exact integrator is
unspecified), the propagator output is embedded as an exact solution of
the equation of motion, i.e. a function of time whose derivative is the
Lindblad right-hand side at every instant of the time window. -/

/-- Density matrix space for an `n`-state atom. -/
abbrev DM (n : ℕ) := Matrix (Fin n) (Fin n) ℂ

noncomputable instance (n : ℕ) : NormedAddCommGroup (DM n) :=
  Matrix.normedAddCommGroup

noncomputable instance (n : ℕ) : NormedSpace ℝ (DM n) :=
  Matrix.normedSpace

/-- Modelled from the spec: the immutable atom description: per-state
energy detunings and the decay list (rate with lower and upper state)
in the Lindblad sense (section 3, AtomModel). -/
structure AtomModel (n : ℕ) where
  energies : Fin n → ℝ
  decays : List (ℝ × Fin n × Fin n)

/-- Modelled from the spec: one coupled field as seen by the
propagator: a complex field-value function over time and the list of
dipole-coupled state pairs (section 3, AtomModel couplings and
FieldEnvelope). -/
structure FieldCoupling (n : ℕ) where
  omega : ℝ → ℂ
  coupledLevels : List (Fin n × Fin n)

/-- Modelled from the spec: the coupling part of the Hamiltonian built
from one field: `Ω(t)/2` on each coupled pair and the conjugate on the
transposed pair (rotating-wave dipole coupling). -/
noncomputable def fieldHamiltonian {n : ℕ} (f : FieldCoupling n) (t : ℝ) : DM n :=
  (f.coupledLevels.map (fun p =>
    (f.omega t / 2) • Matrix.stdBasisMatrix p.1 p.2 (1 : ℂ)
      + (starRingEnd ℂ (f.omega t) / 2) • Matrix.stdBasisMatrix p.2 p.1 (1 : ℂ))).sum

/-- Modelled from the spec: the full time-dependent Hamiltonian:
diagonal energy detunings plus all coupling terms. -/
noncomputable def hamiltonian {n : ℕ} (atom : AtomModel n)
    (fields : List (FieldCoupling n)) (t : ℝ) : DM n :=
  Matrix.diagonal (fun i => ((atom.energies i : ℝ) : ℂ))
    + (fields.map (fun f => fieldHamiltonian f t)).sum

/-- Modelled from the spec: the collapse operator of one decay entry,
`sqrt(rate) |lower><upper|`. -/
noncomputable def collapseOp {n : ℕ} (d : ℝ × Fin n × Fin n) : DM n :=
  Matrix.stdBasisMatrix d.2.1 d.2.2 ((Real.sqrt d.1 : ℝ) : ℂ)

/-- Modelled from the spec: the Lindblad dissipator of a collapse
operator `c`: `c ρ cᴴ - (1/2)(cᴴ c ρ + ρ cᴴ c)`. -/
noncomputable def dissipator {n : ℕ} (c ρ : DM n) : DM n :=
  c * ρ * c.conjTranspose
    - (1 / 2 : ℂ) • (c.conjTranspose * c * ρ + ρ * (c.conjTranspose * c))

/-- Modelled from the spec: the right-hand side of the Lindblad master
equation `-i[H, ρ] + Σ_k D_k[ρ]`. -/
noncomputable def lindbladRHS {n : ℕ} (H : DM n)
    (decays : List (ℝ × Fin n × Fin n)) (ρ : DM n) : DM n :=
  (-Complex.I) • (H * ρ - ρ * H)
    + (decays.map (fun d => dissipator (collapseOp d) ρ)).sum

/-- Modelled from the spec: the propagator output over the time window
`[a, b]`: a density-matrix trajectory solving the master equation, in
the entrywise sense, at every time of the window. -/
def IsLindbladTrajectory {n : ℕ} (atom : AtomModel n)
    (fields : List (FieldCoupling n)) (a b : ℝ) (ρf : ℝ → DM n) : Prop :=
  ∀ t ∈ Set.Icc a b, ∀ i j, HasDerivAt (fun s => ρf s i j)
    (lindbladRHS (hamiltonian atom fields t) atom.decays (ρf t) i j) t

/-- Modelled from the spec: the default initial density matrix: ground
population 1, all other entries 0. -/
def groundState (n : ℕ) : DM n :=
  Matrix.of (fun i j => if i.val = 0 ∧ j.val = 0 then 1 else 0)

/-- Sum of the decay rates of an atom, the constant entering the
Lipschitz bound of the dissipative part. -/
def ratesSum {n : ℕ} (atom : AtomModel n) : ℝ :=
  (atom.decays.map (fun d => d.1)).sum

theorem listSum_apply {n : ℕ} (l : List (DM n)) (i j : Fin n) :
    l.sum i j = (l.map (fun A => A i j)).sum := by
  induction l with
  | nil => rfl
  | cons A l ih => simp [Matrix.add_apply, ih]

theorem stdBasisMatrix_mul_apply {n : ℕ} (l u : Fin n) (c : ℂ) (ρ : DM n)
    (i j : Fin n) :
    (Matrix.stdBasisMatrix l u c * ρ) i j = if i = l then c * ρ u j else 0 := by
  by_cases h : i = l
  · subst h
    simp
  · rw [if_neg h]
    exact Matrix.StdBasisMatrix.mul_left_apply_of_ne _ _ _ _ _ h _

theorem mul_stdBasisMatrix_apply {n : ℕ} (l u : Fin n) (c : ℂ) (ρ : DM n)
    (i j : Fin n) :
    (ρ * Matrix.stdBasisMatrix l u c) i j = if j = u then ρ i l * c else 0 := by
  by_cases h : j = u
  · subst h
    simp
  · rw [if_neg h]
    exact Matrix.StdBasisMatrix.mul_right_apply_of_ne _ _ _ _ _ h _

theorem stdBasisMatrix_conjTranspose {n : ℕ} (l u : Fin n) (c : ℂ) :
    (Matrix.stdBasisMatrix l u c).conjTranspose
      = Matrix.stdBasisMatrix u l (starRingEnd ℂ c) := by
  ext i j
  rw [Matrix.conjTranspose_apply]
  by_cases h1 : i = u <;> by_cases h2 : j = l
  · subst h1
    subst h2
    simp
  · rw [Matrix.StdBasisMatrix.apply_of_ne _ _ _ _ _ (fun hc => h2 hc.1.symm),
      Matrix.StdBasisMatrix.apply_of_ne _ _ _ _ _ (fun hc => h2 hc.2.symm),
      star_zero]
  · rw [Matrix.StdBasisMatrix.apply_of_ne _ _ _ _ _ (fun hc => h1 hc.2.symm),
      Matrix.StdBasisMatrix.apply_of_ne _ _ _ _ _ (fun hc => h1 hc.1.symm),
      star_zero]
  · rw [Matrix.StdBasisMatrix.apply_of_ne _ _ _ _ _ (fun hc => h1 hc.2.symm),
      Matrix.StdBasisMatrix.apply_of_ne _ _ _ _ _ (fun hc => h1 hc.1.symm),
      star_zero]

theorem dissipator_std_apply {n : ℕ} (l u : Fin n) (c : ℂ) (ρ : DM n)
    (i j : Fin n) :
    dissipator (Matrix.stdBasisMatrix l u c) ρ i j =
      (if j = l then (if i = l then c * ρ u u else 0) * starRingEnd ℂ c else 0)
        - (1 / 2 : ℂ) * ((if i = u then starRingEnd ℂ c * c * ρ u j else 0)
          + (if j = u then ρ i u * (starRingEnd ℂ c * c) else 0)) := by
  rw [dissipator, Matrix.sub_apply, Matrix.smul_apply, Matrix.add_apply,
    stdBasisMatrix_conjTranspose, Matrix.StdBasisMatrix.mul_same,
    mul_stdBasisMatrix_apply, stdBasisMatrix_mul_apply,
    stdBasisMatrix_mul_apply, mul_stdBasisMatrix_apply, smul_eq_mul]

theorem trace_dissipator {n : ℕ} (c ρ : DM n) :
    Matrix.trace (dissipator c ρ) = 0 := by
  rw [dissipator, Matrix.trace_sub, Matrix.trace_smul, Matrix.trace_add,
    Matrix.trace_mul_comm (c * ρ) c.conjTranspose, ← mul_assoc,
    Matrix.trace_mul_comm ρ (c.conjTranspose * c), smul_eq_mul]
  ring

theorem trace_listSum {n : ℕ} (l : List (DM n)) :
    Matrix.trace l.sum = (l.map Matrix.trace).sum := by
  induction l with
  | nil => simp
  | cons A l ih => simp [Matrix.trace_add, ih]

theorem trace_lindbladRHS {n : ℕ} (H : DM n)
    (decays : List (ℝ × Fin n × Fin n)) (ρ : DM n) :
    Matrix.trace (lindbladRHS H decays ρ) = 0 := by
  rw [lindbladRHS, Matrix.trace_add, Matrix.trace_smul, Matrix.trace_sub,
    Matrix.trace_mul_comm H ρ, trace_listSum]
  have hz : ∀ x ∈ (decays.map (fun d => dissipator (collapseOp d) ρ)).map
      Matrix.trace, x = 0 := by
    intro x hx
    rw [List.map_map, List.mem_map] at hx
    obtain ⟨d, _, hd⟩ := hx
    rw [← hd]
    exact trace_dissipator _ _
  rw [List.sum_eq_zero hz]
  simp

theorem star_half_complex : star (1 / 2 : ℂ) = (1 / 2 : ℂ) := by
  rw [star_div₀, star_one]
  norm_num

theorem dissipator_conjTranspose {n : ℕ} (c ρ : DM n) :
    (dissipator c ρ).conjTranspose = dissipator c ρ.conjTranspose := by
  rw [dissipator, dissipator]
  simp only [Matrix.conjTranspose_sub, Matrix.conjTranspose_smul,
    Matrix.conjTranspose_add, Matrix.conjTranspose_mul,
    Matrix.conjTranspose_conjTranspose, star_half_complex]
  simp only [Algebra.smul_def]
  noncomm_ring

theorem dissipator_sub {n : ℕ} (c x y : DM n) :
    dissipator c (x - y) = dissipator c x - dissipator c y := by
  rw [dissipator, dissipator, dissipator]
  simp only [Matrix.mul_sub, Matrix.sub_mul, Algebra.smul_def]
  noncomm_ring

theorem lindbladRHS_sub {n : ℕ} (H : DM n)
    (decays : List (ℝ × Fin n × Fin n)) (x y : DM n) :
    lindbladRHS H decays (x - y) = lindbladRHS H decays x - lindbladRHS H decays y := by
  rw [lindbladRHS, lindbladRHS, lindbladRHS]
  have hsum : (decays.map (fun d => dissipator (collapseOp d) (x - y))).sum
      = (decays.map (fun d => dissipator (collapseOp d) x)).sum
        - (decays.map (fun d => dissipator (collapseOp d) y)).sum := by
    induction decays with
    | nil => simp
    | cons d l ih =>
      rw [List.map_cons, List.sum_cons, List.map_cons, List.sum_cons,
        List.map_cons, List.sum_cons, dissipator_sub, ih]
      abel
  rw [hsum]
  simp only [Matrix.mul_sub, Matrix.sub_mul, Algebra.smul_def]
  noncomm_ring

theorem listSum_conjTranspose {n : ℕ} (l : List (DM n)) :
    l.sum.conjTranspose = (l.map Matrix.conjTranspose).sum := by
  induction l with
  | nil => simp
  | cons A l ih => simp [Matrix.conjTranspose_add, ih]

theorem fieldHamiltonian_conjTranspose {n : ℕ} (f : FieldCoupling n) (t : ℝ) :
    (fieldHamiltonian f t).conjTranspose = fieldHamiltonian f t := by
  rw [fieldHamiltonian, listSum_conjTranspose, List.map_map]
  refine congrArg List.sum (List.map_congr_left ?_)
  intro p _
  simp only [Function.comp_apply, Matrix.conjTranspose_add,
    Matrix.conjTranspose_smul, stdBasisMatrix_conjTranspose, map_one,
    Complex.star_def, Complex.conj_conj, map_div₀, map_ofNat]
  rw [add_comm]

theorem hamiltonian_conjTranspose {n : ℕ} (atom : AtomModel n)
    (fields : List (FieldCoupling n)) (t : ℝ) :
    (hamiltonian atom fields t).conjTranspose = hamiltonian atom fields t := by
  rw [hamiltonian, Matrix.conjTranspose_add, Matrix.diagonal_conjTranspose,
    listSum_conjTranspose, List.map_map]
  have hdiag : (star fun i => ((atom.energies i : ℝ) : ℂ))
      = fun i => ((atom.energies i : ℝ) : ℂ) := by
    funext i
    simp [Complex.star_def, Complex.conj_ofReal]
  rw [hdiag]
  refine congrArg (Matrix.diagonal _ + ·) (congrArg List.sum (List.map_congr_left ?_))
  intro f _
  exact fieldHamiltonian_conjTranspose f t

theorem lindbladRHS_conjTranspose {n : ℕ} {H : DM n}
    (hH : H.conjTranspose = H) (decays : List (ℝ × Fin n × Fin n)) (ρ : DM n) :
    (lindbladRHS H decays ρ).conjTranspose
      = lindbladRHS H decays ρ.conjTranspose := by
  rw [lindbladRHS, lindbladRHS, Matrix.conjTranspose_add,
    Matrix.conjTranspose_smul, Matrix.conjTranspose_sub,
    Matrix.conjTranspose_mul, Matrix.conjTranspose_mul, hH,
    listSum_conjTranspose, List.map_map]
  have hmap : decays.map (Matrix.conjTranspose ∘ fun d => dissipator (collapseOp d) ρ)
      = decays.map (fun d => dissipator (collapseOp d) ρ.conjTranspose) := by
    refine List.map_congr_left ?_
    intro d _
    exact dissipator_conjTranspose _ _
  rw [hmap]
  have hstar : star (-Complex.I) = Complex.I := by
    simp [Complex.star_def]
  rw [hstar]
  have hsmul : Complex.I • (ρ.conjTranspose * H - H * ρ.conjTranspose)
      = -Complex.I • (H * ρ.conjTranspose - ρ.conjTranspose * H) := by
    rw [neg_smul, ← smul_neg, neg_sub]
  rw [hsmul]

theorem hasDerivAt_matrix_of_entries {n : ℕ} {f : ℝ → DM n} {fd : DM n}
    {t : ℝ} (h : ∀ i j, HasDerivAt (fun s => f s i j) (fd i j) t) :
    HasDerivAt f fd t := by
  have h1 : ∀ i, HasDerivAt (fun s => f s i) (fd i) t :=
    fun i => hasDerivAt_pi.mpr (h i)
  exact hasDerivAt_pi.mpr h1

theorem norm_ite_le {P : Prop} [Decidable P] {x : ℂ} {B : ℝ}
    (hx : ‖x‖ ≤ B) (hB : 0 ≤ B) : ‖if P then x else 0‖ ≤ B := by
  split_ifs
  · exact hx
  · simpa using hB

theorem mul_entry_bound {n : ℕ} {C : ℝ} (H z : DM n)
    (hH : ∀ i j, ‖H i j‖ ≤ C) (i j : Fin n) :
    ‖(H * z) i j‖ ≤ (n : ℝ) * C * ‖z‖ := by
  rw [Matrix.mul_apply]
  refine (norm_sum_le _ _).trans ?_
  have hterm : ∀ k : Fin n, ‖H i k * z k j‖ ≤ C * ‖z‖ := by
    intro k
    rw [norm_mul]
    exact mul_le_mul (hH i k) (Matrix.norm_entry_le_entrywise_sup_norm z)
      (norm_nonneg _) ((norm_nonneg _).trans (hH i k))
  refine (Finset.sum_le_sum (fun k _ => hterm k)).trans ?_
  rw [Finset.sum_const, Finset.card_univ, Fintype.card_fin, nsmul_eq_mul,
    mul_assoc]

theorem entry_mul_bound {n : ℕ} {C : ℝ} (H z : DM n)
    (hH : ∀ i j, ‖H i j‖ ≤ C) (i j : Fin n) :
    ‖(z * H) i j‖ ≤ (n : ℝ) * C * ‖z‖ := by
  rw [Matrix.mul_apply]
  refine (norm_sum_le _ _).trans ?_
  have hterm : ∀ k : Fin n, ‖z i k * H k j‖ ≤ C * ‖z‖ := by
    intro k
    rw [norm_mul, mul_comm]
    exact mul_le_mul (hH k j) (Matrix.norm_entry_le_entrywise_sup_norm z)
      (norm_nonneg _) ((norm_nonneg _).trans (hH k j))
  refine (Finset.sum_le_sum (fun k _ => hterm k)).trans ?_
  rw [Finset.sum_const, Finset.card_univ, Fintype.card_fin, nsmul_eq_mul,
    mul_assoc]

theorem dissipator_entry_bound {n : ℕ} (d : ℝ × Fin n × Fin n)
    (hd : 0 ≤ d.1) (z : DM n) (i j : Fin n) :
    ‖dissipator (collapseOp d) z i j‖ ≤ 2 * d.1 * ‖z‖ := by
  rw [collapseOp, dissipator_std_apply]
  have hcc : starRingEnd ℂ ((Real.sqrt d.1 : ℝ) : ℂ) = ((Real.sqrt d.1 : ℝ) : ℂ) :=
    Complex.conj_ofReal _
  rw [hcc]
  have hsq : (((Real.sqrt d.1 : ℝ) : ℂ)) * (((Real.sqrt d.1 : ℝ) : ℂ))
      = ((d.1 : ℝ) : ℂ) := by
    rw [← Complex.ofReal_mul, Real.mul_self_sqrt hd]
  rw [hsq]
  have hs : ‖((Real.sqrt d.1 : ℝ) : ℂ)‖ = Real.sqrt d.1 := by
    rw [Complex.norm_real, Real.norm_eq_abs, abs_of_nonneg (Real.sqrt_nonneg _)]
  have hnorm_r : ‖((d.1 : ℝ) : ℂ)‖ = d.1 := by
    rw [Complex.norm_real, Real.norm_eq_abs, abs_of_nonneg hd]
  have hzB : ∀ a b : Fin n, ‖z a b‖ ≤ ‖z‖ :=
    fun a b => Matrix.norm_entry_le_entrywise_sup_norm z
  have hzn : (0 : ℝ) ≤ ‖z‖ := norm_nonneg _
  have hdz : (0 : ℝ) ≤ d.1 * ‖z‖ := mul_nonneg hd hzn
  refine (norm_sub_le _ _).trans ?_
  have h1 : ‖if j = d.2.1 then
      (if i = d.2.1 then ((Real.sqrt d.1 : ℝ) : ℂ) * z d.2.2 d.2.2 else 0)
        * ((Real.sqrt d.1 : ℝ) : ℂ) else 0‖ ≤ d.1 * ‖z‖ := by
    refine norm_ite_le ?_ hdz
    rw [norm_mul]
    have hin : ‖if i = d.2.1 then ((Real.sqrt d.1 : ℝ) : ℂ) * z d.2.2 d.2.2
        else 0‖ ≤ Real.sqrt d.1 * ‖z‖ := by
      refine norm_ite_le ?_ (mul_nonneg (Real.sqrt_nonneg _) hzn)
      rw [norm_mul, hs]
      exact mul_le_mul_of_nonneg_left (hzB _ _) (Real.sqrt_nonneg _)
    refine le_trans (mul_le_mul_of_nonneg_right hin (norm_nonneg _)) ?_
    rw [hs, mul_right_comm, Real.mul_self_sqrt hd]
  have h2 : ‖if i = d.2.2 then ((d.1 : ℝ) : ℂ) * z d.2.2 j else 0‖
      ≤ d.1 * ‖z‖ := by
    refine norm_ite_le ?_ hdz
    rw [norm_mul, hnorm_r]
    exact mul_le_mul_of_nonneg_left (hzB _ _) hd
  have h3 : ‖if j = d.2.2 then z i d.2.2 * ((d.1 : ℝ) : ℂ) else 0‖
      ≤ d.1 * ‖z‖ := by
    refine norm_ite_le ?_ hdz
    rw [norm_mul, hnorm_r, mul_comm]
    exact mul_le_mul_of_nonneg_left (hzB _ _) hd
  have hhalf : ‖(1 / 2 : ℂ)‖ = (1 / 2 : ℝ) := by
    rw [norm_div, norm_one]
    norm_num
  rw [norm_mul, hhalf]
  have h23 := (norm_add_le _ _).trans (add_le_add h2 h3)
  have := mul_le_mul_of_nonneg_left h23 (by norm_num : (0 : ℝ) ≤ 1 / 2)
  linarith

theorem dissipator_sum_entry_bound {n : ℕ} (z : DM n) (i j : Fin n) :
    ∀ (ds : List (ℝ × Fin n × Fin n)), (∀ d ∈ ds, 0 ≤ d.1) →
      ‖(ds.map (fun d => dissipator (collapseOp d) z)).sum i j‖
        ≤ 2 * (ds.map (fun d => d.1)).sum * ‖z‖ := by
  intro ds
  induction ds with
  | nil =>
    intro _
    simp
  | cons d l ih =>
    intro hnn
    rw [List.map_cons, List.sum_cons, Matrix.add_apply, List.map_cons,
      List.sum_cons]
    have hd := hnn d (List.mem_cons_self d l)
    have hl := fun x hx => hnn x (List.mem_cons_of_mem d hx)
    have h1 := dissipator_entry_bound d hd z i j
    have h2 := ih hl
    refine (norm_add_le _ _).trans ?_
    have := add_le_add h1 h2
    refine this.trans (le_of_eq ?_)
    ring

/-- Lipschitz constant of the Lindblad right-hand side for a Hamiltonian
entry bound `C` and a decay list. -/
def lipK (n : ℕ) (C : ℝ) (ds : List (ℝ × Fin n × Fin n)) : ℝ :=
  2 * n * C + 2 * (ds.map (fun d => d.1)).sum

theorem lindbladRHS_entry_bound {n : ℕ} {C : ℝ} (H : DM n)
    (ds : List (ℝ × Fin n × Fin n)) (hH : ∀ i j, ‖H i j‖ ≤ C)
    (hds : ∀ d ∈ ds, 0 ≤ d.1) (z : DM n) (i j : Fin n) :
    ‖lindbladRHS H ds z i j‖ ≤ lipK n C ds * ‖z‖ := by
  rw [lindbladRHS, Matrix.add_apply, Matrix.smul_apply, Matrix.sub_apply]
  refine (norm_add_le _ _).trans ?_
  have hcomm : ‖(-Complex.I) • ((H * z) i j - (z * H) i j)‖
      ≤ 2 * n * C * ‖z‖ := by
    rw [norm_smul, norm_neg, Complex.norm_I, one_mul]
    refine (norm_sub_le _ _).trans ?_
    have := add_le_add (mul_entry_bound H z hH i j) (entry_mul_bound H z hH i j)
    refine this.trans (le_of_eq ?_)
    ring
  have hdiss := dissipator_sum_entry_bound z i j ds hds
  have := add_le_add hcomm hdiss
  refine this.trans (le_of_eq ?_)
  rw [lipK]
  ring

theorem lipK_nonneg {n : ℕ} {C : ℝ} (hC : 0 ≤ C)
    {ds : List (ℝ × Fin n × Fin n)} (hds : ∀ d ∈ ds, 0 ≤ d.1) :
    0 ≤ lipK n C ds := by
  have hsum : 0 ≤ (ds.map (fun d => d.1)).sum := by
    refine List.sum_nonneg ?_
    intro x hx
    rw [List.mem_map] at hx
    obtain ⟨d, hd, rfl⟩ := hx
    exact hds d hd
  have hn : (0 : ℝ) ≤ (n : ℝ) := Nat.cast_nonneg n
  rw [lipK]
  nlinarith

theorem lindbladRHS_lipschitz {n : ℕ} {C : ℝ} (hC : 0 ≤ C) (H : DM n)
    (ds : List (ℝ × Fin n × Fin n)) (hH : ∀ i j, ‖H i j‖ ≤ C)
    (hds : ∀ d ∈ ds, 0 ≤ d.1) :
    LipschitzWith (Real.toNNReal (lipK n C ds))
      (fun ρ => lindbladRHS H ds ρ) := by
  refine LipschitzWith.of_dist_le_mul ?_
  intro x y
  rw [dist_eq_norm, dist_eq_norm, ← lindbladRHS_sub,
    Real.coe_toNNReal _ (lipK_nonneg hC hds)]
  refine (Matrix.norm_le_iff (mul_nonneg (lipK_nonneg hC hds)
    (norm_nonneg _))).mpr ?_
  intro i j
  exact lindbladRHS_entry_bound H ds hH hds (x - y) i j

theorem lindbladTrajectory_unique {n : ℕ} (atom : AtomModel n)
    (fields : List (FieldCoupling n)) (a b : ℝ) {C : ℝ} (hC : 0 ≤ C)
    (hH : ∀ (t : ℝ) (i j : Fin n), ‖hamiltonian atom fields t i j‖ ≤ C)
    (hds : ∀ d ∈ atom.decays, 0 ≤ d.1) {f g : ℝ → DM n}
    (hf : IsLindbladTrajectory atom fields a b f)
    (hg : IsLindbladTrajectory atom fields a b g)
    (hinit : f a = g a) : Set.EqOn f g (Set.Icc a b) := by
  have hfM : ∀ t ∈ Set.Icc a b, HasDerivAt f
      (lindbladRHS (hamiltonian atom fields t) atom.decays (f t)) t :=
    fun t ht => hasDerivAt_matrix_of_entries (hf t ht)
  have hgM : ∀ t ∈ Set.Icc a b, HasDerivAt g
      (lindbladRHS (hamiltonian atom fields t) atom.decays (g t)) t :=
    fun t ht => hasDerivAt_matrix_of_entries (hg t ht)
  refine ODE_solution_unique
    (v := fun t ρ => lindbladRHS (hamiltonian atom fields t) atom.decays ρ)
    (K := Real.toNNReal (lipK n C atom.decays))
    (fun t => lindbladRHS_lipschitz hC (hamiltonian atom fields t)
      atom.decays (hH t) hds)
    (fun t ht => ((hfM t ht).continuousAt).continuousWithinAt)
    (fun t ht => ((hfM t (Set.Ico_subset_Icc_self ht)).hasDerivWithinAt))
    (fun t ht => ((hgM t ht).continuousAt).continuousWithinAt)
    (fun t ht => ((hgM t (Set.Ico_subset_Icc_self ht)).hasDerivWithinAt))
    hinit

theorem trace_eq_sum_diag {n : ℕ} (A : DM n) :
    Matrix.trace A = ∑ i : Fin n, A i i := rfl

theorem trajectory_trace_const {n : ℕ} (atom : AtomModel n)
    (fields : List (FieldCoupling n)) (a b : ℝ) {ρf : ℝ → DM n}
    (htraj : IsLindbladTrajectory atom fields a b ρf) :
    ∀ t ∈ Set.Icc a b, Matrix.trace (ρf t) = Matrix.trace (ρf a) := by
  have hderiv : ∀ t ∈ Set.Icc a b,
      HasDerivAt (fun s => Matrix.trace (ρf s)) 0 t := by
    intro t ht
    have hsum : HasDerivAt (fun s => ∑ i : Fin n, ρf s i i)
        (∑ i : Fin n,
          lindbladRHS (hamiltonian atom fields t) atom.decays (ρf t) i i) t :=
      HasDerivAt.sum (fun i _ => htraj t ht i i)
    have hzero : (∑ i : Fin n,
        lindbladRHS (hamiltonian atom fields t) atom.decays (ρf t) i i) = 0 := by
      rw [← trace_eq_sum_diag, trace_lindbladRHS]
    rw [hzero] at hsum
    exact hsum
  exact constant_of_has_deriv_right_zero
    (fun t ht => ((hderiv t ht).continuousAt).continuousWithinAt)
    (fun t ht => (hderiv t (Set.Ico_subset_Icc_self ht)).hasDerivWithinAt)

theorem trajectory_conjTranspose {n : ℕ} (atom : AtomModel n)
    (fields : List (FieldCoupling n)) (a b : ℝ) {ρf : ℝ → DM n}
    (htraj : IsLindbladTrajectory atom fields a b ρf) :
    IsLindbladTrajectory atom fields a b (fun t => (ρf t).conjTranspose) := by
  intro t ht i j
  have hstar := (htraj t ht j i).star
  have heq : star (lindbladRHS (hamiltonian atom fields t) atom.decays (ρf t) j i)
      = lindbladRHS (hamiltonian atom fields t) atom.decays
          ((ρf t).conjTranspose) i j := by
    have h1 : star (lindbladRHS (hamiltonian atom fields t) atom.decays (ρf t) j i)
        = (lindbladRHS (hamiltonian atom fields t) atom.decays (ρf t)).conjTranspose i j :=
      rfl
    rw [h1, lindbladRHS_conjTranspose (hamiltonian_conjTranspose atom fields t)]
  rw [heq] at hstar
  exact hstar

theorem trajectory_hermitian {n : ℕ} (atom : AtomModel n)
    (fields : List (FieldCoupling n)) (a b : ℝ) {C : ℝ} (hC : 0 ≤ C)
    (hH : ∀ (t : ℝ) (i j : Fin n), ‖hamiltonian atom fields t i j‖ ≤ C)
    (hds : ∀ d ∈ atom.decays, 0 ≤ d.1) {ρf : ℝ → DM n}
    (htraj : IsLindbladTrajectory atom fields a b ρf)
    (hinit : (ρf a).conjTranspose = ρf a) :
    ∀ t ∈ Set.Icc a b, (ρf t).conjTranspose = ρf t := by
  have hEq := lindbladTrajectory_unique atom fields a b hC hH hds htraj
    (trajectory_conjTranspose atom fields a b htraj) hinit.symm
  intro t ht
  exact (hEq ht).symm

/-! ## The zero-field stationary ground state -/

theorem fieldHamiltonian_zero {n : ℕ} (f : FieldCoupling n) (t : ℝ)
    (h : f.omega t = 0) : fieldHamiltonian f t = 0 := by
  rw [fieldHamiltonian]
  have hmap : f.coupledLevels.map (fun p =>
      (f.omega t / 2) • Matrix.stdBasisMatrix p.1 p.2 (1 : ℂ)
        + (starRingEnd ℂ (f.omega t) / 2) • Matrix.stdBasisMatrix p.2 p.1 (1 : ℂ))
      = f.coupledLevels.map (fun _ => (0 : DM n)) := by
    refine List.map_congr_left ?_
    intro p _
    rw [h]
    simp
  rw [hmap]
  induction f.coupledLevels with
  | nil => rfl
  | cons p l ih => simp [ih]

theorem hamiltonian_zero_field {n : ℕ} (atom : AtomModel n)
    (fields : List (FieldCoupling n)) (t : ℝ)
    (h : ∀ f ∈ fields, f.omega t = 0) :
    hamiltonian atom fields t
      = Matrix.diagonal (fun i => ((atom.energies i : ℝ) : ℂ)) := by
  rw [hamiltonian]
  have hmap : fields.map (fun f => fieldHamiltonian f t)
      = fields.map (fun _ => (0 : DM n)) := by
    refine List.map_congr_left ?_
    intro f hf
    exact fieldHamiltonian_zero f t (h f hf)
  rw [hmap]
  have hzero : (fields.map (fun _ => (0 : DM n))).sum = 0 := by
    induction fields with
    | nil => rfl
    | cons f l ih => simp [ih]
  rw [hzero, add_zero]

theorem groundState_apply {n : ℕ} (i j : Fin n) :
    groundState n i j = if i.val = 0 ∧ j.val = 0 then 1 else 0 := rfl

theorem diagonal_ground_comm {n : ℕ} (v : Fin n → ℂ) :
    Matrix.diagonal v * groundState n - groundState n * Matrix.diagonal v = 0 := by
  ext i j
  rw [Matrix.sub_apply, Matrix.diagonal_mul, Matrix.mul_diagonal,
    Matrix.zero_apply, groundState_apply]
  by_cases h : i.val = 0 ∧ j.val = 0
  · have hij : i = j := Fin.ext (h.1.trans h.2.symm)
    subst hij
    simp
  · rw [if_neg h]
    ring

theorem dissipator_ground {n : ℕ} (d : ℝ × Fin n × Fin n)
    (hupper : d.2.2.val ≠ 0) :
    dissipator (collapseOp d) (groundState n) = 0 := by
  ext i j
  rw [collapseOp, dissipator_std_apply, Matrix.zero_apply]
  have hg1 : groundState n d.2.2 d.2.2 = 0 := by
    rw [groundState_apply, if_neg (fun hc => hupper hc.1)]
  have hg2 : groundState n d.2.2 j = 0 := by
    rw [groundState_apply, if_neg (fun hc => hupper hc.1)]
  have hg3 : groundState n i d.2.2 = 0 := by
    rw [groundState_apply, if_neg (fun hc => hupper hc.2)]
  rw [hg1, hg2, hg3]
  simp

theorem lindbladRHS_ground_zero {n : ℕ} (v : Fin n → ℂ)
    (ds : List (ℝ × Fin n × Fin n)) (hup : ∀ d ∈ ds, d.2.2.val ≠ 0) :
    lindbladRHS (Matrix.diagonal v) ds (groundState n) = 0 := by
  rw [lindbladRHS, diagonal_ground_comm, smul_zero, zero_add]
  have hmap : ds.map (fun d => dissipator (collapseOp d) (groundState n))
      = ds.map (fun _ => (0 : DM n)) := by
    refine List.map_congr_left ?_
    intro d hd
    exact dissipator_ground d (hup d hd)
  rw [hmap]
  induction ds with
  | nil => rfl
  | cons d l ih => simp [ih]

theorem ground_constant_isTrajectory {n : ℕ} (atom : AtomModel n)
    (fields : List (FieldCoupling n)) (a b : ℝ)
    (hzero : ∀ f ∈ fields, ∀ t, f.omega t = 0)
    (hup : ∀ d ∈ atom.decays, d.2.2.val ≠ 0) :
    IsLindbladTrajectory atom fields a b (fun _ => groundState n) := by
  intro t ht i j
  rw [hamiltonian_zero_field atom fields t (fun f hf => hzero f hf t),
    lindbladRHS_ground_zero _ _ hup, Matrix.zero_apply]
  exact hasDerivAt_const t _

/-! ## The resonant two-level Rabi oscillation -/

/-- Modelled from the spec: the two-level atom with zero detuning and
zero decay. -/
def twoLevelAtom : AtomModel 2 :=
  { energies := fun _ => 0, decays := [] }

/-- Modelled from the spec: a constant real driving field of Rabi
frequency `r` coupling the ground and excited states. -/
noncomputable def constantField (r : ℝ) : FieldCoupling 2 :=
  { omega := fun _ => ((r : ℝ) : ℂ), coupledLevels := [(0, 1)] }

/-- The exact Rabi-oscillation density matrix started from the ground
state: populations `(1 ± cos(r t))/2` and coherences `± i sin(r t)/2`. -/
noncomputable def rabiSolution (r : ℝ) (t : ℝ) : DM 2 :=
  !![(((1 + Real.cos (r * t)) / 2 : ℝ) : ℂ),
     Complex.I * ((Real.sin (r * t) : ℝ) : ℂ) / 2;
     -(Complex.I * ((Real.sin (r * t) : ℝ) : ℂ) / 2),
     (((1 - Real.cos (r * t)) / 2 : ℝ) : ℂ)]

theorem lindbladRHS_nil {n : ℕ} (H ρ : DM n) :
    lindbladRHS H [] ρ = (-Complex.I) • (H * ρ - ρ * H) := by
  simp [lindbladRHS]

theorem hamiltonian_twoLevel (r : ℝ) (t : ℝ) :
    hamiltonian twoLevelAtom [constantField r] t
      = !![0, ((r : ℝ) : ℂ) / 2; ((r : ℝ) : ℂ) / 2, 0] := by
  ext i j
  fin_cases i <;> fin_cases j <;>
    simp [hamiltonian, fieldHamiltonian, twoLevelAtom, constantField,
      Complex.conj_ofReal, Matrix.stdBasisMatrix, Matrix.diagonal]

theorem rabiSolution_zero (r : ℝ) : rabiSolution r 0 = groundState 2 := by
  ext i j
  fin_cases i <;> fin_cases j <;>
    simp [rabiSolution, groundState_apply]

theorem rabi_rhs (r : ℝ) (t : ℝ) :
    lindbladRHS (hamiltonian twoLevelAtom [constantField r] t)
      twoLevelAtom.decays (rabiSolution r t)
      = !![((-(Real.sin (r * t) * r) / 2 : ℝ) : ℂ),
           Complex.I * ((Real.cos (r * t) * r : ℝ) : ℂ) / 2;
           -(Complex.I * ((Real.cos (r * t) * r : ℝ) : ℂ) / 2),
           ((Real.sin (r * t) * r / 2 : ℝ) : ℂ)] := by
  rw [show twoLevelAtom.decays = [] from rfl, lindbladRHS_nil,
    hamiltonian_twoLevel, rabiSolution, Matrix.mul_fin_two, Matrix.mul_fin_two]
  ext i j
  fin_cases i <;> fin_cases j <;>
    · simp only [Matrix.smul_apply, Matrix.sub_apply, Matrix.cons_val',
        Matrix.cons_val_zero, Matrix.cons_val_one, Matrix.head_cons,
        Matrix.head_fin_const, Matrix.empty_val', Matrix.cons_val_fin_one,
        smul_eq_mul]
      push_cast
      simp [Complex.ext_iff]
      try ring_nf
      try simp [Complex.I_sq]
      try ring

theorem rabi_isTrajectory (r a b : ℝ) :
    IsLindbladTrajectory twoLevelAtom [constantField r] a b (rabiSolution r) := by
  intro t ht i j
  rw [rabi_rhs]
  have hlin : HasDerivAt (fun s : ℝ => r * s) r t := by
    simpa using (hasDerivAt_id t).const_mul r
  have hsin : HasDerivAt (fun s => Real.sin (r * s)) (Real.cos (r * t) * r) t :=
    (Real.hasDerivAt_sin (r * t)).comp t hlin
  have hcos : HasDerivAt (fun s => Real.cos (r * s)) (-Real.sin (r * t) * r) t :=
    (Real.hasDerivAt_cos (r * t)).comp t hlin
  fin_cases i <;> fin_cases j
  · refine HasDerivAt.congr_deriv (((hcos.const_add 1).div_const 2).ofReal_comp) ?_
    simp
  · refine HasDerivAt.congr_deriv ((hsin.ofReal_comp.const_mul Complex.I).div_const 2) ?_
    simp
  · refine HasDerivAt.congr_deriv (((hsin.ofReal_comp.const_mul Complex.I).div_const 2).neg) ?_
    simp
  · refine HasDerivAt.congr_deriv (((hcos.const_sub 1).div_const 2).ofReal_comp) ?_
    simp

theorem hamiltonian_twoLevel_bound (r : ℝ) :
    ∀ (t : ℝ) (i j : Fin 2),
      ‖hamiltonian twoLevelAtom [constantField r] t i j‖ ≤ |r| := by
  intro t i j
  rw [hamiltonian_twoLevel]
  have h0 : ‖(0 : ℂ)‖ ≤ |r| := by
    rw [norm_zero]
    exact abs_nonneg r
  have hhalf : ‖((r : ℝ) : ℂ) / 2‖ ≤ |r| := by
    rw [norm_div, Complex.norm_real, Real.norm_eq_abs]
    have h2 : ‖(2 : ℂ)‖ = 2 := by norm_num
    rw [h2]
    linarith [abs_nonneg r]
  fin_cases i <;> fin_cases j
  · simpa using h0
  · simpa using hhalf
  · simpa using hhalf
  · simpa using h0

theorem sin_sq_half (x : ℝ) :
    Real.sin (x / 2) ^ 2 = (1 - Real.cos x) / 2 := by
  have h := Real.cos_two_mul (x / 2)
  have h2 : 2 * (x / 2) = x := by ring
  rw [h2] at h
  have h3 := Real.sin_sq_add_cos_sq (x / 2)
  linarith

theorem groundState_conjTranspose (n : ℕ) :
    (groundState n).conjTranspose = groundState n := by
  ext i j
  rw [Matrix.conjTranspose_apply, groundState_apply, groundState_apply]
  by_cases hi : i.val = 0 <;> by_cases hj : j.val = 0 <;> simp [hi, hj]

theorem groundState_two_trace : Matrix.trace (groundState 2) = 1 := by
  rw [trace_eq_sum_diag, Fin.sum_univ_two]
  simp [groundState_apply]

/-- Modelled from the spec: the AtomModel validity invariant: decay
rates are non-negative and each decay channel is an ordered (lower,
upper) pair of distinct states (section 3 and the two-level notebook). -/
def AtomModel.Valid {n : ℕ} (atom : AtomModel n) : Prop :=
  ∀ d ∈ atom.decays, 0 ≤ d.1 ∧ d.2.1 < d.2.2

theorem AtomModel.Valid.upper_ne_zero {n : ℕ} {atom : AtomModel n}
    (h : atom.Valid) : ∀ d ∈ atom.decays, d.2.2.val ≠ 0 := by
  intro d hd
  have hlt := (h d hd).2
  have hv : d.2.1.val < d.2.2.val := hlt
  omega

/-! ## The spectral analyzer

Modelled from the spec: the SpectralAnalyzer transforms each z slice of
the completed FieldGrid into the frequency domain and derives the
absorption and dispersion relative to a reference slice, defaulting to
the first z-index (section 4.5; the missing code is the `spectral`
module). -/

/-- Modelled from the spec: the discrete Fourier transform of one time
series. -/
noncomputable def dft {N : ℕ} (x : Fin N → ℂ) (k : Fin N) : ℂ :=
  ∑ j : Fin N, x j * Complex.exp
    (-2 * Real.pi * Complex.I * (((j : ℕ) : ℂ) * ((k : ℕ) : ℂ)) / ((N : ℕ) : ℂ))

/-- Modelled from the spec: `absorption(z) = -log(|Ω(z,ω)| /
|Ω(z_ref,ω)|)` with the reference slice defaulting to the first
z-index. -/
noncomputable def spectralAbsorption {N Z : ℕ}
    (F : Fin (Z + 1) → Fin N → ℂ) (zRef : Option (Fin (Z + 1)))
    (z : Fin (Z + 1)) (k : Fin N) : ℝ :=
  -Real.log (‖dft (F z) k‖ / ‖dft (F (zRef.getD 0)) k‖)

/-- Modelled from the spec: the phases of the frequency-domain slice on
the discrete frequency axis. -/
noncomputable def phaseList {N : ℕ} (x : Fin N → ℂ) : List ℝ :=
  List.ofFn (fun k => Complex.arg (dft x k))

/-- Modelled from the spec: one step of phase unwrapping: shift the
current phase by the multiple of `2π` closest to the previous one. -/
noncomputable def unwrapNext (prev cur : ℝ) : ℝ :=
  cur - 2 * Real.pi * ((round ((cur - prev) / (2 * Real.pi)) : ℤ) : ℝ)

/-- Modelled from the spec: phase unwrapping of the tail of a phase
sequence against an accumulator. -/
noncomputable def unwrapFrom : ℝ → List ℝ → List ℝ
  | _, [] => []
  | prev, c :: rest =>
    unwrapNext prev c :: unwrapFrom (unwrapNext prev c) rest

/-- Modelled from the spec: phase unwrapping of a phase sequence along
the frequency axis (`np.unwrap`). -/
noncomputable def unwrapPhases : List ℝ → List ℝ
  | [] => []
  | a :: rest => a :: unwrapFrom a rest

/-- Modelled from the spec: `dispersion(z)` is the unwrapped phase
difference `φ(z,ω) − φ(z_ref,ω)`, with the reference slice defaulting
to the first z-index. -/
noncomputable def spectralDispersion {N Z : ℕ}
    (F : Fin (Z + 1) → Fin N → ℂ) (zRef : Option (Fin (Z + 1)))
    (z : Fin (Z + 1)) : List ℝ :=
  List.zipWith (fun p q => p - q)
    (unwrapPhases (phaseList (F z)))
    (unwrapPhases (phaseList (F (zRef.getD 0))))

/-! ## Claim theorems -/

theorem thermalZStep_singleClass {N : ℕ} (Ng : ℝ) (dz : ℚ)
    (solve : ℝ → (Fin N → ℂ) → (Fin N → ℂ)) (nominal : ℝ)
    (row : Fin N → ℂ) :
    thermalZStep Ng dz solve nominal [(1, 0)] row
      = plainZStep Ng dz solve nominal row := by
  rw [thermalZStep, plainZStep]
  have hpol : weightedPolarization solve nominal [(1, 0)] row
      = solve nominal row := by
    funext t
    rw [weightedPolarization]
    simp
  rw [hpol]

/-- C4: at every z and t the ThermalAverager passes the FieldStepper
the polarization `P_total(z,t) = Σ_c weight_c · P_c(z,t)`, the weighted
sum over velocity classes of the per-class polarizations solved at the
nominal detuning shifted by the class offset; and a run configured with
exactly one velocity class of weight 1 and detuning offset 0 produces
grids identical to the run with no velocity classes configured. -/
theorem claim4_thermal_averaging {N : ℕ} (Ng : ℝ) (dz : ℚ)
    (solve : ℝ → (Fin N → ℂ) → (Fin N → ℂ)) (nominal : ℝ)
    (classes : List (ℝ × ℝ)) (row row0 : Fin N → ℂ) (zSteps : ℕ) :
    (thermalZStep Ng dz solve nominal classes row
        = fieldStepRow Ng dz
            (fun t => (classes.map
              (fun c => (c.1 : ℂ) * solve (nominal + c.2) row t)).sum) row)
    ∧ (∀ k : ℕ, rowAt (thermalZStep Ng dz solve nominal [(1, 0)]) row0 k
        = rowAt (plainZStep Ng dz solve nominal) row0 k)
    ∧ channelGrid (thermalZStep Ng dz solve nominal [(1, 0)]) row0 zSteps
        = channelGrid (plainZStep Ng dz solve nominal) row0 zSteps := by
  have hrows : ∀ k : ℕ,
      rowAt (thermalZStep Ng dz solve nominal [(1, 0)]) row0 k
        = rowAt (plainZStep Ng dz solve nominal) row0 k := by
    intro k
    induction k with
    | zero => rfl
    | succ k ih =>
      rw [rowAt_succ, rowAt_succ, ih, thermalZStep_singleClass]
  refine ⟨rfl, hrows, ?_⟩
  rw [channelGrid, channelGrid]
  refine List.map_congr_left ?_
  intro k _
  exact hrows k

/-- C5: for `thermal_delta_min = -0.1`, `thermal_delta_max = 0.1`,
`thermal_delta_steps = 4` the generated `thermal_delta_list` has
exactly 5 points and is symmetric about 0; and for every configuration
with an inner range, detuning values duplicated between the outer and
inner ranges are collapsed to a single entry, the merged list is
strictly increasing, and (for a positive thermal width) every entry
carries a non-negative weight. -/
theorem claim5_velocity_classes :
    ((buildThermalDeltaList ⟨-1/10, 1/10, 4, none, 1/20⟩).length = 5
      ∧ (buildThermalDeltaList ⟨-1/10, 1/10, 4, none, 1/20⟩).map (fun d => -d)
          = (buildThermalDeltaList ⟨-1/10, 1/10, 4, none, 1/20⟩).reverse)
    ∧ ∀ vc : VelocityClasses, ∀ ao bo : ℚ, ∀ so : ℕ,
        vc.inner = some (ao, bo, so) →
        ((buildThermalDeltaList vc).Sorted (· < ·)
          ∧ (buildThermalDeltaList vc).Nodup
          ∧ (∀ x : ℚ, x ∈ buildThermalDeltaList vc ↔
              x ∈ linspace vc.thermalDeltaMin vc.thermalDeltaMax vc.thermalDeltaSteps
                ∨ x ∈ linspace ao bo so)
          ∧ (0 < ((vc.thermalWidth : ℚ) : ℝ) →
              ∀ w ∈ thermalWeights vc, 0 ≤ w)) := by
  constructor
  · constructor
    · norm_num [buildThermalDeltaList, linspace, List.range_succ]
    · norm_num [buildThermalDeltaList, linspace, List.range_succ]
  · intro vc ao bo so hin
    have hbuild : buildThermalDeltaList vc
        = mergeDeltas
            (linspace vc.thermalDeltaMin vc.thermalDeltaMax vc.thermalDeltaSteps)
            (linspace ao bo so) := by
      unfold buildThermalDeltaList
      rw [hin]
    refine ⟨?_, ?_, ?_, ?_⟩
    · rw [hbuild]
      exact mergeDeltas_sorted _ _
    · rw [hbuild]
      exact mergeDeltas_nodup _ _
    · intro x
      rw [hbuild]
      exact mem_mergeDeltas _ _ x
    · intro hw w hwmem
      rw [thermalWeights, List.mem_map] at hwmem
      obtain ⟨d, _, rfl⟩ := hwmem
      exact maxwellBoltzmann_nonneg _ hw

/-- C6: for every completed FieldGrid channel and every z-index, the
SpectralAnalyzer returns `absorption(z) = -log(|Ω(z,ω)| /
|Ω(z_ref,ω)|)` and `dispersion(z)` equal to the unwrapped phase
difference `φ(z,ω) − φ(z_ref,ω)`, where `Ω(z,ω)` is the Fourier
transform of the time series at `z` and `z_ref` defaults to the first
z-index when not overridden. -/
theorem claim6_spectral_analyzer {N Z : ℕ}
    (F : Fin (Z + 1) → Fin N → ℂ) (z : Fin (Z + 1)) (k : Fin N) :
    spectralAbsorption F none z k
        = -Real.log (‖dft (F z) k‖ / ‖dft (F 0) k‖)
    ∧ spectralDispersion F none z
        = List.zipWith (fun p q => p - q)
            (unwrapPhases (phaseList (F z)))
            (unwrapPhases (phaseList (F 0)))
    ∧ (∀ zr : Fin (Z + 1), spectralAbsorption F (some zr) z k
        = -Real.log (‖dft (F z) k‖ / ‖dft (F zr) k‖)) :=
  ⟨rfl, rfl, fun _ => rfl⟩

/-- C7: the time grid has `t_steps + 1` samples, the space grid has
`z_steps + 1` samples, `Omegas_zt` is indexed by (field channel,
z-index, t-index) with those axis sizes, the row at `z = z_min` is the
declared input envelope sampled on the time grid, and every subsequent
row is produced by the stepping loop from the previous one. -/
theorem claim7_grid_shape (g : MBGrid) (fields : List (FieldChannel g))
    (solve : ℝ → (Fin (g.tSteps + 1) → ℂ) → (Fin (g.tSteps + 1) → ℂ)) :
    g.tlist.length = g.tSteps + 1
    ∧ g.zlist.length = g.zSteps + 1
    ∧ (∀ i : Fin (g.tSteps + 1), g.tlist[i.val]? = some (g.tval i))
    ∧ (OmegasZT g fields solve).length = fields.length
    ∧ (∀ c : ℕ, ∀ f : FieldChannel g, fields[c]? = some f →
        ∃ grid, (OmegasZT g fields solve)[c]? = some grid
          ∧ grid.length = g.zSteps + 1
          ∧ grid[0]? = some (fun i => f.envelope (g.tval i))
          ∧ ∀ k : ℕ, k < g.zSteps →
              grid[k + 1]? = (grid[k]?).map
                (plainZStep f.strength g.dz solve f.detuning)) := by
  refine ⟨linspace_length _ _ _, linspace_length _ _ _, ?_, ?_, ?_⟩
  · intro i
    have hi : i.val < (List.range (g.tSteps + 1)).length := by
      rw [List.length_range]
      exact i.isLt
    rw [MBGrid.tlist, linspace, List.getElem?_map, List.getElem?_range i.isLt]
    rfl
  · rw [OmegasZT, List.length_map]
  · intro c f hc
    refine ⟨channelGrid (plainZStep f.strength g.dz solve f.detuning)
      (boundaryRow f) g.zSteps, ?_, ?_, ?_, ?_⟩
    · rw [OmegasZT, List.getElem?_map, hc]
      rfl
    · rw [channelGrid, List.length_map, List.length_range]
    · rw [channelGrid_get _ _ _ 0 (Nat.succ_pos _)]
      rfl
    · intro k hk
      rw [channelGrid_get _ _ _ (k + 1) (by omega),
        channelGrid_get _ _ _ k (by omega)]
      rfl

/-- C1: for a bounded-Hamiltonian run with non-negative decay rates,
starting from a Hermitian unit-trace density matrix, the density matrix
produced by the MasterEquationPropagator is Hermitian within `1e-6` and
has trace 1 within `1e-6` at every time of the window; and with zero
decay the total population (the trace) is exactly conserved over the
whole time window. -/
theorem claim1_invariants {n : ℕ} (atom : AtomModel n)
    (fields : List (FieldCoupling n)) (a b : ℝ) {C : ℝ} (hC : 0 ≤ C)
    (hH : ∀ (t : ℝ) (i j : Fin n), ‖hamiltonian atom fields t i j‖ ≤ C)
    (hrates : ∀ d ∈ atom.decays, 0 ≤ d.1) {ρf : ℝ → DM n}
    (htraj : IsLindbladTrajectory atom fields a b ρf)
    (hherm : (ρf a).conjTranspose = ρf a)
    (htrace : Matrix.trace (ρf a) = 1) :
    (∀ t ∈ Set.Icc a b,
      (∀ i j, ‖ρf t i j - starRingEnd ℂ (ρf t j i)‖ ≤ 1e-6)
        ∧ ‖Matrix.trace (ρf t) - 1‖ ≤ 1e-6)
    ∧ (atom.decays = [] →
        ∀ t ∈ Set.Icc a b, Matrix.trace (ρf t) = Matrix.trace (ρf a)) := by
  have hermAll := trajectory_hermitian atom fields a b hC hH hrates htraj hherm
  have traceAll := trajectory_trace_const atom fields a b htraj
  constructor
  · intro t ht
    constructor
    · intro i j
      have h := hermAll t ht
      have hentry : starRingEnd ℂ (ρf t j i) = (ρf t).conjTranspose i j := rfl
      rw [hentry, h, sub_self, norm_zero]
      norm_num
    · rw [traceAll t ht, htrace, sub_self, norm_zero]
      norm_num
  · intro _ t ht
    exact traceAll t ht

theorem claim1_invariants_witness :
    (0 : ℝ) ≤ 0
    ∧ IsLindbladTrajectory twoLevelAtom [] 0 1 (fun _ => groundState 2)
    ∧ ((∀ t ∈ Set.Icc (0 : ℝ) 1,
        (∀ i j, ‖groundState 2 i j - starRingEnd ℂ (groundState 2 j i)‖ ≤ 1e-6)
          ∧ ‖Matrix.trace (groundState 2) - 1‖ ≤ 1e-6)
      ∧ (twoLevelAtom.decays = [] →
          ∀ t ∈ Set.Icc (0 : ℝ) 1,
            Matrix.trace (groundState 2) = Matrix.trace (groundState 2))) :=
  ⟨le_refl 0,
    ground_constant_isTrajectory twoLevelAtom [] 0 1 (by simp)
      (by simp [twoLevelAtom]),
    claim1_invariants twoLevelAtom [] 0 1 (le_refl 0)
      (by
        intro t i j
        rw [hamiltonian_zero_field twoLevelAtom [] t (by simp)]
        fin_cases i <;> fin_cases j <;>
          simp [twoLevelAtom, Matrix.diagonal])
      (by simp [twoLevelAtom])
      (ground_constant_isTrajectory twoLevelAtom [] 0 1 (by simp)
        (by simp [twoLevelAtom]))
      (groundState_conjTranspose 2) groundState_two_trace⟩

/-- C2: for the two-level atom with zero decay and zero detuning,
driven by a constant real field of Rabi frequency `r` and started in
the ground state at time 0, the excited-state population returned by
the MasterEquationPropagator equals `sin²(r t / 2)` at every time of
the window, hence at every time sample. -/
theorem claim2_rabi_oscillation (r b : ℝ) {ρf : ℝ → DM 2}
    (htraj : IsLindbladTrajectory twoLevelAtom [constantField r] 0 b ρf)
    (hinit : ρf 0 = groundState 2) :
    ∀ t ∈ Set.Icc (0 : ℝ) b,
      ρf t 1 1 = ((Real.sin (r * t / 2) ^ 2 : ℝ) : ℂ) := by
  have hEq := lindbladTrajectory_unique twoLevelAtom [constantField r] 0 b
    (abs_nonneg r) (hamiltonian_twoLevel_bound r) (by simp [twoLevelAtom])
    htraj (rabi_isTrajectory r 0 b) (by rw [hinit, rabiSolution_zero])
  intro t ht
  rw [hEq ht]
  have hentry : rabiSolution r t 1 1
      = (((1 - Real.cos (r * t)) / 2 : ℝ) : ℂ) := by
    simp [rabiSolution]
  rw [hentry, sin_sq_half]

theorem claim2_rabi_oscillation_witness :
    IsLindbladTrajectory twoLevelAtom [constantField 1] 0 1 (rabiSolution 1)
    ∧ rabiSolution 1 0 = groundState 2
    ∧ (∀ t ∈ Set.Icc (0 : ℝ) 1,
        rabiSolution 1 t 1 1 = ((Real.sin (1 * t / 2) ^ 2 : ℝ) : ℂ)) :=
  ⟨rabi_isTrajectory 1 0 1, rabiSolution_zero 1,
    claim2_rabi_oscillation 1 1 (rabi_isTrajectory 1 0 1) (rabiSolution_zero 1)⟩

/-- C3: for every valid AtomModel and every z slice, if the field
amplitude is identically zero over the whole window, then the
density-matrix trajectory returned by the MasterEquationPropagator is
constant in time and equal to the initial density matrix, which
defaults to ground population 1 and all other entries 0. -/
theorem claim3_zero_field_constant {n : ℕ} (atom : AtomModel n)
    (fields : List (FieldCoupling n)) (a b : ℝ) {C : ℝ} (hC : 0 ≤ C)
    (hE : ∀ i, |atom.energies i| ≤ C) (hvalid : atom.Valid)
    (hzero : ∀ f ∈ fields, ∀ t, f.omega t = 0) {ρf : ℝ → DM n}
    (htraj : IsLindbladTrajectory atom fields a b ρf)
    (hinit : ρf a = groundState n) :
    ∀ t ∈ Set.Icc a b, ρf t = groundState n := by
  have hH : ∀ (t : ℝ) (i j : Fin n),
      ‖hamiltonian atom fields t i j‖ ≤ C := by
    intro t i j
    rw [hamiltonian_zero_field atom fields t (fun f hf => hzero f hf t)]
    by_cases hij : i = j
    · subst hij
      rw [Matrix.diagonal_apply_eq, Complex.norm_real, Real.norm_eq_abs]
      exact hE i
    · rw [Matrix.diagonal_apply_ne _ hij, norm_zero]
      exact hC
  have hrates : ∀ d ∈ atom.decays, 0 ≤ d.1 := fun d hd => (hvalid d hd).1
  have hEq := lindbladTrajectory_unique atom fields a b hC hH hrates htraj
    (ground_constant_isTrajectory atom fields a b hzero
      hvalid.upper_ne_zero)
    (by rw [hinit])
  intro t ht
  exact hEq ht

theorem claim3_zero_field_constant_witness :
    (0 : ℝ) ≤ 0
    ∧ AtomModel.Valid (n := 2) ⟨fun _ => 0, [(1, 0, 1)]⟩
    ∧ IsLindbladTrajectory (n := 2) ⟨fun _ => 0, [(1, 0, 1)]⟩
        [⟨fun _ => 0, [(0, 1)]⟩] 0 1 (fun _ => groundState 2)
    ∧ (∀ t ∈ Set.Icc (0 : ℝ) 1, groundState 2 = groundState 2) := by
  have hvalid : AtomModel.Valid (n := 2) ⟨fun _ => 0, [(1, 0, 1)]⟩ := by
    intro d hd
    rw [List.mem_singleton] at hd
    subst hd
    exact ⟨zero_le_one, by decide⟩
  have hzero : ∀ f ∈ [(⟨fun _ => 0, [(0, 1)]⟩ : FieldCoupling 2)],
      ∀ t : ℝ, f.omega t = 0 := by
    intro f hf t
    rw [List.mem_singleton] at hf
    subst hf
    rfl
  have htraj : IsLindbladTrajectory (n := 2) ⟨fun _ => 0, [(1, 0, 1)]⟩
      [⟨fun _ => 0, [(0, 1)]⟩] 0 1 (fun _ => groundState 2) :=
    ground_constant_isTrajectory _ _ 0 1 hzero hvalid.upper_ne_zero
  exact ⟨le_refl 0, hvalid, htraj,
    claim3_zero_field_constant ⟨fun _ => 0, [(1, 0, 1)]⟩
      [⟨fun _ => 0, [(0, 1)]⟩] 0 1 (le_refl 0) (by simp) hvalid hzero
      htraj rfl⟩

/-- C8: when the stepping update fails at some z-index, the run stops
with the NumericalInstabilityError carrying that z-index, there is no
backward transition (nothing beyond the failing index is produced), and
the entries for all z-indices up to the last successful one equal their
ideally computed values and remain available alongside the error. -/
theorem claim8_instability_partial_results {σ : Type _}
    (step : ℕ → σ → Option σ) (s0 : σ) (n : ℕ) (rows : List σ) (i : ℕ)
    (h : stepLoop step s0 n = (rows, some i)) :
    i < n ∧ rows.length = i + 1
    ∧ (∀ j, j ≤ i → rows[j]? = pureRow step s0 j)
    ∧ pureRow step s0 i ≠ none
    ∧ pureRow step s0 (i + 1) = none := by
  obtain ⟨h1, h2, h3, h4, h5⟩ := stepLoopGo_fail step n s0 0 rows i h
  rw [Nat.sub_zero] at h3 h4 h5
  refine ⟨by omega, h3, fun j hj => h4 j hj, ?_, h5⟩
  have hi : i < rows.length := by omega
  have hsome : rows[i]? = some rows[i] := List.getElem?_eq_getElem hi
  have := h4 i le_rfl
  rw [hsome] at this
  rw [pureRow, ← this]
  exact Option.some_ne_none _

theorem claim8_instability_partial_results_witness :
    stepLoop (fun _ s => if s < 2 then some (s + 1) else none) (0 : ℕ) 5
      = ([0, 1, 2], some 2)
    ∧ (2 < 5 ∧ [0, 1, 2].length = 2 + 1
      ∧ (∀ j, j ≤ 2 → [0, 1, 2][j]? =
          pureRow (fun _ s => if s < 2 then some (s + 1) else none) 0 j)
      ∧ pureRow (fun _ s => if s < 2 then some (s + 1) else none) 0 2 ≠ none
      ∧ pureRow (fun _ s => if s < 2 then some (s + 1) else none) 0 (2 + 1)
          = none) :=
  ⟨by decide,
    claim8_instability_partial_results _ 0 5 [0, 1, 2] 2 (by decide)⟩

/-- C9: the AtomModel and FieldEnvelope data are an immutable problem
description: the run, embedded as explicit state passing, reads the
problem part and rewrites only the grids, so after any number of z
steps the problem part of the state is unchanged. -/
theorem claim9_problem_readonly {P R : Type _}
    (update : P → List R → List R) (st : SolveState P R) (k : ℕ) :
    ((solveZStep update)^[k] st).problem = st.problem := by
  induction k with
  | zero => rfl
  | succ k ih =>
    rw [Function.iterate_succ_apply']
    exact ih

/-- C10: an `mbsolve` call with `recalc = False` returns the same grids
as a fresh computation on the same inputs: given that the savefile
holds either nothing or a previously computed result of the same
problem, the returned result always equals the fresh computation, and
the savefile again holds that result; the flag never changes the value
of the result. -/
theorem claim10_recalc_equivalence {P R : Type _} (compute : P → R)
    (prob : P) (recalc : Bool) (cache : Option R)
    (hcache : cache = none ∨ cache = some (compute prob)) :
    (mbsolveCached compute prob recalc cache).1 = compute prob
    ∧ (mbsolveCached compute prob recalc cache).1
        = (mbsolveCached compute prob true none).1
    ∧ (mbsolveCached compute prob recalc cache).2 = some (compute prob) := by
  rcases hcache with hnone | hsome
  · subst hnone
    cases recalc <;> exact ⟨rfl, rfl, rfl⟩
  · subst hsome
    cases recalc <;> exact ⟨rfl, rfl, rfl⟩

theorem claim10_recalc_equivalence_witness :
    ((some (37 + 1) : Option ℕ) = none
        ∨ (some (37 + 1) : Option ℕ) = some ((fun p : ℕ => p + 1) 37))
    ∧ ((mbsolveCached (fun p : ℕ => p + 1) 37 false (some (37 + 1))).1
          = (fun p : ℕ => p + 1) 37
      ∧ (mbsolveCached (fun p : ℕ => p + 1) 37 false (some (37 + 1))).1
          = (mbsolveCached (fun p : ℕ => p + 1) 37 true none).1
      ∧ (mbsolveCached (fun p : ℕ => p + 1) 37 false (some (37 + 1))).2
          = some ((fun p : ℕ => p + 1) 37)) :=
  ⟨Or.inr rfl,
    claim10_recalc_equivalence (fun p : ℕ => p + 1) 37 false
      (some (37 + 1)) (Or.inr rfl)⟩

theorem claim5_velocity_classes_witness :
    ((⟨-1/10, 1/10, 4, some (0, 1, 2), 1⟩ : VelocityClasses).inner
        = some (0, 1, 2))
    ∧ (0 : ℝ) < (((⟨-1/10, 1/10, 4, some (0, 1, 2), 1⟩
        : VelocityClasses).thermalWidth : ℚ) : ℝ)
    ∧ (buildThermalDeltaList ⟨-1/10, 1/10, 4, some (0, 1, 2), 1⟩).Sorted (· < ·)
    ∧ ∀ w ∈ thermalWeights ⟨-1/10, 1/10, 4, some (0, 1, 2), 1⟩, 0 ≤ w :=
  ⟨rfl, by simp,
    (claim5_velocity_classes.2 _ 0 1 2 rfl).1,
    (claim5_velocity_classes.2 _ 0 1 2 rfl).2.2.2 (by simp)⟩

theorem claim7_grid_shape_witness :
    ([(⟨fun _ => (0 : ℂ), 0, 0⟩ : FieldChannel ⟨0, 1, 1, 0, 1, 1⟩)][0]?
        = some (⟨fun _ => (0 : ℂ), 0, 0⟩ : FieldChannel ⟨0, 1, 1, 0, 1, 1⟩))
    ∧ (∃ grid,
        (OmegasZT ⟨0, 1, 1, 0, 1, 1⟩ [⟨fun _ => (0 : ℂ), 0, 0⟩]
            (fun _ r => r))[0]? = some grid
        ∧ grid.length = (⟨0, 1, 1, 0, 1, 1⟩ : MBGrid).zSteps + 1
        ∧ grid[0]? = some (fun i =>
            (⟨fun _ => (0 : ℂ), 0, 0⟩
              : FieldChannel ⟨0, 1, 1, 0, 1, 1⟩).envelope
                (MBGrid.tval ⟨0, 1, 1, 0, 1, 1⟩ i))
        ∧ ∀ k : ℕ, k < (⟨0, 1, 1, 0, 1, 1⟩ : MBGrid).zSteps →
            grid[k + 1]? = (grid[k]?).map
              (plainZStep (0 : ℝ) (MBGrid.dz ⟨0, 1, 1, 0, 1, 1⟩)
                (fun _ r => r) (0 : ℝ))) :=
  ⟨rfl,
    (claim7_grid_shape ⟨0, 1, 1, 0, 1, 1⟩ [⟨fun _ => (0 : ℂ), 0, 0⟩]
        (fun _ r => r)).2.2.2.2 0 _ rfl⟩

end MaxwellBloch
